import Mathlib

/-!
# Verification of the generalized rock–paper–scissors core (`src/game.js`)

Shallow embedding of the two core components of the repository:

* `GameRules` — the generalized rules matrix (`generateRulesMatrix`,
  `determineResult`) built from an ordered list of move names using the
  circular-distance rule, and the CLI argument validation
  (`validateArguments`) that guards its construction.
* `HMACCalculator` — the commitment digest `calculateHMAC`, modelled by a
  full HMAC-SHA256 implementation over byte lists (Node's
  `crypto.createHmac('sha256', key).update(message).digest('hex')`).

JavaScript machine integers in the matrix code stay inside small ranges, so
they are modelled by `Nat` with explicit `% n`; SHA-256 words are `Nat`
reduced `% 2^32`.  Fallible operations (`determineResult` throwing,
`validateArguments` exiting the process) are modelled with `Except`.
-/

/-- Outcome of one resolved round, modelling the strings `'Win'`, `'Lose'`,
`'Draw'` stored in the rules matrix of `game.js`. -/
inductive Outcome : Type
  | Win
  | Lose
  | Draw
  deriving DecidableEq, Repr

open Outcome

/-- `matrix[i][k] = v`: JS in-place update of one cell of a 2D array
(`matrix[i][winIndex] = 'Win'` / `matrix[i][loseIndex] = 'Lose'`,
game.js lines 30–31).  Out-of-range writes do not occur in the source
(all indices are `< n`). -/
def setCell (m : List (List Outcome)) (i k : Nat) (v : Outcome) :
    List (List Outcome) :=
  m.set i ((m.getD i []).set k v)

/-- Body of the inner loop of `generateRulesMatrix` (game.js lines 27–32) for
row `i` and offset `j`: first `matrix[i][(i+j)%n] = 'Win'`, then
`matrix[i][(i-j+n)%n] = 'Lose'`.  In JS `i - j + n` is computed over signed
integers; since `j ≤ (n-1)/2 < n`, it equals the natural number `i + n - j`. -/
def innerStep (n i : Nat) (m : List (List Outcome)) (j : Nat) :
    List (List Outcome) :=
  setCell (setCell m i ((i + j) % n) Outcome.Win) i ((i + n - j) % n) Outcome.Lose

/-- One pass of the outer loop of `generateRulesMatrix` for row `i`: the inner
loop runs `j = 1, 2, …` while `j <= (n-1)/2` (JS float division), i.e. for the
integers `1 ≤ j ≤ ⌊(n-1)/2⌋`. -/
def rowPass (n : Nat) (m : List (List Outcome)) (i : Nat) :
    List (List Outcome) :=
  (List.range' 1 ((n - 1) / 2)).foldl (innerStep n i) m

/-- The list `[1, …, ⌊(n-1)/2⌋]` of offsets visited by the inner loop. -/
def offsets (n : Nat) : List Nat := List.range' 1 ((n - 1) / 2)

/-- `GameRules.generateRulesMatrix` (game.js lines 22–36): start from an
`n × n` matrix filled with `'Draw'` and run the double loop. -/
def generateRulesMatrix (moves : List String) : List (List Outcome) :=
  let n := moves.length
  (List.range n).foldl (rowPass n)
    (List.replicate n (List.replicate n Outcome.Draw))

/-- `matrix[r][c]`: read one cell of the 2D array.  The defaults are never
reached on the in-range reads performed by the source. -/
def cellAt (m : List (List Outcome)) (r c : Nat) : Outcome :=
  (m.getD r []).getD c Outcome.Draw

/-- `m` is an `n × n` matrix. -/
def Dims (n : Nat) (m : List (List Outcome)) : Prop :=
  m.length = n ∧ ∀ row ∈ m, row.length = n

/-- The `GameRules` class: the constructor (game.js lines 17–20) stores the
move list and precomputes the rules matrix.  It performs no validation. -/
structure GameRules where
  moves : List String
  rulesMatrix : List (List Outcome)

/-- `new GameRules(moves)` (game.js lines 17–20). -/
def GameRules.ofMoves (moves : List String) : GameRules :=
  { moves := moves, rulesMatrix := generateRulesMatrix moves }

/-- The exact message of the error thrown by `determineResult`
(game.js line 64). -/
def invalidMoveMessage : String :=
  "Invalid move selected. Please choose a valid move."

/-- `GameRules.determineResult` (game.js lines 59–68): look up the indices of
both moves with `Array.prototype.indexOf` (modelled by `List.findIdx?`, which
is `none` exactly when `indexOf` returns `-1`), throw on an unknown move, and
otherwise return `rulesMatrix[playerIndex][computerIndex]`.  Both indices are
first-occurrence indices and are `< n`, so the `getD` defaults are never
used. -/
def GameRules.determineResult (g : GameRules) (playerMove computerMove : String) :
    Except String Outcome :=
  match g.moves.findIdx? (· == playerMove), g.moves.findIdx? (· == computerMove) with
  | some playerIndex, some computerIndex =>
      Except.ok (cellAt g.rulesMatrix playerIndex computerIndex)
  | _, _ => Except.error invalidMoveMessage

/-- `validateArguments` (game.js lines 131–137): the argument list is invalid
when it has fewer than 3 entries, an even number of entries, or duplicates
(`new Set(args).size !== args.length`, modelled with `List.dedup`).  Returns
`true` when the JS function would print an error and exit the process. -/
def validateArguments (args : List String) : Bool :=
  decide (args.length < 3) || args.length % 2 == 0
    || args.dedup.length != args.length

/-- The error message printed by `validateArguments` (game.js line 133). -/
def configurationErrorMessage : String :=
  "Error: Please provide an odd number of unique moves (>= 3)."

/-- The top-level construction path of the program (game.js lines 139–142):
`validateArguments(args)` exits the process on invalid input (modelled as
`Except.error`), otherwise `new RockPaperScissorsGame(args)` constructs the
`GameRules` relation. -/
def buildGame (args : List String) : Except String GameRules :=
  if validateArguments args then Except.error configurationErrorMessage
  else Except.ok (GameRules.ofMoves args)

/-! ## The commitment digest: HMAC-SHA256

`HMACCalculator.calculateHMAC` (game.js lines 10–14) is
`crypto.createHmac('sha256', key).update(message).digest('hex')`.  Node's
`crypto` library is modelled by a faithful FIPS 180-4 SHA-256 and RFC 2104
HMAC over byte lists (`Nat`s below 256), with 32-bit words as `Nat % 2^32`. -/

/-- Truncation to a 32-bit word. -/
def w32 (x : Nat) : Nat := x % 4294967296

/-- Right rotation of a 32-bit word by `r` (for `r ≤ 32`). -/
def rotr32 (r x : Nat) : Nat := w32 (x / 2 ^ r + x % 2 ^ r * 2 ^ (32 - r))

/-- Logical right shift of a 32-bit word. -/
def shr32 (r x : Nat) : Nat := x / 2 ^ r

/-- SHA-256 `Σ₀`. -/
def bigSigma0 (x : Nat) : Nat := rotr32 2 x ^^^ rotr32 13 x ^^^ rotr32 22 x

/-- SHA-256 `Σ₁`. -/
def bigSigma1 (x : Nat) : Nat := rotr32 6 x ^^^ rotr32 11 x ^^^ rotr32 25 x

/-- SHA-256 `σ₀`. -/
def smallSigma0 (x : Nat) : Nat := rotr32 7 x ^^^ rotr32 18 x ^^^ shr32 3 x

/-- SHA-256 `σ₁`. -/
def smallSigma1 (x : Nat) : Nat := rotr32 17 x ^^^ rotr32 19 x ^^^ shr32 10 x

/-- SHA-256 `Ch(x,y,z)`; 32-bit complement is XOR with `2^32 - 1`. -/
def chFn (x y z : Nat) : Nat := (x &&& y) ^^^ ((x ^^^ 4294967295) &&& z)

/-- SHA-256 `Maj(x,y,z)`. -/
def majFn (x y z : Nat) : Nat := (x &&& y) ^^^ (x &&& z) ^^^ (y &&& z)

/-- The eight 32-bit words of the SHA-256 working state / hash value. -/
structure Sha256State where
  h0 : Nat
  h1 : Nat
  h2 : Nat
  h3 : Nat
  h4 : Nat
  h5 : Nat
  h6 : Nat
  h7 : Nat

/-- The 64 SHA-256 round constants (FIPS 180-4 §4.2.2), written in decimal:
the fractional bits of the cube roots of the first 64 primes. -/
def sha256K : List Nat :=
  [1116352408, 1899447441, 3049323471, 3921009573, 961987163, 1508970993,
   2453635748, 2870763221, 3624381080, 310598401, 607225278, 1426881987,
   1925078388, 2162078206, 2614888103, 3248222580, 3835390401, 4022224774,
   264347078, 604807628, 770255983, 1249150122, 1555081692, 1996064986,
   2554220882, 2821834349, 2952996808, 3210313671, 3336571891, 3584528711,
   113926993, 338241895, 666307205, 773529912, 1294757372, 1396182291,
   1695183700, 1986661051, 2177026350, 2456956037, 2730485921, 2820302411,
   3259730800, 3345764771, 3516065817, 3600352804, 4094571909, 275423344,
   430227734, 506948616, 659060556, 883997877, 958139571, 1322822218,
   1537002063, 1747873779, 1955562222, 2024104815, 2227730452, 2361852424,
   2428436474, 2756734187, 3204031479, 3329325298]

/-- The SHA-256 initial hash value (FIPS 180-4 §5.3.3), in decimal: the
fractional bits of the square roots of the first 8 primes. -/
def sha256Init : Sha256State :=
  ⟨1779033703, 3144134277, 1013904242, 2773480762,
   1359893119, 2600822924, 528734635, 1541459225⟩

/-- Word `t` of a 64-byte block, big-endian. -/
def blockWord (block : List Nat) (t : Nat) : Nat :=
  block.getD (4 * t) 0 * 2 ^ 24 + block.getD (4 * t + 1) 0 * 2 ^ 16 +
    block.getD (4 * t + 2) 0 * 2 ^ 8 + block.getD (4 * t + 3) 0

/-- The 64-entry message schedule `W` of one block (FIPS 180-4 §6.2.2 step 1). -/
def messageSchedule (block : List Nat) : List Nat :=
  (List.range 64).foldl
    (fun ws t =>
      if t < 16 then ws ++ [blockWord block t]
      else
        ws ++ [w32 (smallSigma1 (ws.getD (t - 2) 0) + ws.getD (t - 7) 0 +
          smallSigma0 (ws.getD (t - 15) 0) + ws.getD (t - 16) 0)])
    []

/-- One SHA-256 round with constant–schedule pair `kw` (FIPS 180-4 §6.2.2
step 3). -/
def sha256Round (s : Sha256State) (kw : Nat × Nat) : Sha256State :=
  let t1 := w32 (s.h7 + bigSigma1 s.h4 + chFn s.h4 s.h5 s.h6 + kw.1 + kw.2)
  let t2 := w32 (bigSigma0 s.h0 + majFn s.h0 s.h1 s.h2)
  ⟨w32 (t1 + t2), s.h0, s.h1, s.h2, w32 (s.h3 + t1), s.h4, s.h5, s.h6⟩

/-- Compression of one 64-byte block into the running hash value. -/
def sha256Compress (s : Sha256State) (block : List Nat) : Sha256State :=
  let t := (sha256K.zip (messageSchedule block)).foldl sha256Round s
  ⟨w32 (s.h0 + t.h0), w32 (s.h1 + t.h1), w32 (s.h2 + t.h2), w32 (s.h3 + t.h3),
   w32 (s.h4 + t.h4), w32 (s.h5 + t.h5), w32 (s.h6 + t.h6), w32 (s.h7 + t.h7)⟩

/-- The 8-byte big-endian encoding of the message bit length. -/
def lenBytes (bits : Nat) : List Nat :=
  (List.range 8).map fun i => bits / 2 ^ (8 * (7 - i)) % 256

/-- SHA-256 padding (FIPS 180-4 §5.1.1): append `0x80`, zeros up to 56 mod 64,
then the 64-bit big-endian bit length. -/
def sha256Pad (msg : List Nat) : List Nat :=
  msg ++ [128] ++ List.replicate ((64 + 56 - (msg.length + 1) % 64) % 64) 0 ++
    lenBytes (8 * msg.length)

/-- Split a byte list whose length is a multiple of 64 into 64-byte blocks. -/
def toBlocks (xs : List Nat) : List (List Nat) :=
  (List.range (xs.length / 64)).map fun b => (xs.drop (64 * b)).take 64

/-- Big-endian bytes of one 32-bit word. -/
def wordBytes (w : Nat) : List Nat :=
  [w / 2 ^ 24 % 256, w / 2 ^ 16 % 256, w / 2 ^ 8 % 256, w % 256]

/-- The 32-byte digest serialization of a hash state. -/
def stateBytes (s : Sha256State) : List Nat :=
  wordBytes s.h0 ++ wordBytes s.h1 ++ wordBytes s.h2 ++ wordBytes s.h3 ++
    wordBytes s.h4 ++ wordBytes s.h5 ++ wordBytes s.h6 ++ wordBytes s.h7

/-- SHA-256 of a byte list. -/
def sha256 (msg : List Nat) : List Nat :=
  stateBytes ((toBlocks (sha256Pad msg)).foldl sha256Compress sha256Init)

/-- HMAC-SHA256 (RFC 2104, block size 64): keys longer than the block are
hashed, the key is zero-padded to 64 bytes, and the inner/outer pads are
XOR with `0x36` / `0x5c`. -/
def hmacSha256 (key msg : List Nat) : List Nat :=
  let k0 := if 64 < key.length then sha256 key else key
  let kp := k0 ++ List.replicate (64 - k0.length) 0
  sha256 (kp.map (· ^^^ 92) ++ sha256 (kp.map (· ^^^ 54) ++ msg))

/-- The sixteen lowercase hexadecimal digits. -/
def hexChars : List Char := "0123456789abcdef".toList

/-- Hex digit of a nibble. -/
def hexDigit (n : Nat) : Char := hexChars.getD n '0'

/-- The two lowercase hex characters of one byte. -/
def byteHex (b : Nat) : List Char := [hexDigit (b / 16), hexDigit (b % 16)]

/-- Lowercase hex encoding of a byte list (Node's `.digest('hex')`). -/
def bytesToHex (bs : List Nat) : String := String.mk (bs.flatMap byteHex)

/-- UTF-8 bytes of a string (Node's `.update(message)` on a JS string). -/
def utf8Bytes (s : String) : List Nat := s.toUTF8.toList.map (fun b => b.toNat)

/-- `HMACCalculator.calculateHMAC` (game.js lines 10–14):
`crypto.createHmac('sha256', key).update(message).digest('hex')` with a byte
key (the 32-byte buffer from `crypto.randomBytes(32)`) and a string message. -/
def HMACCalculator.calculateHMAC (key : List Nat) (message : String) : String :=
  bytesToHex (hmacSha256 key (utf8Bytes message))

/-- Modelled from the spec: the repository's source has no `verify` function
(the CLI prints the HMAC key and leaves checking to the user), so the spec's
`verify(key, move, commitment) -> bool` is embedded from its words:
"recomputes `commit(key, move)` and compares byte-for-byte … to the supplied
`commitment`. Returns true iff equal", with `commit = calculateHMAC`. -/
def verify (key : List Nat) (move : String) (commitment : String) : Bool :=
  HMACCalculator.calculateHMAC key move == commitment

/-! ## Basic lemmas about matrix cells and updates -/

/-- Reduction of `a % n` when `a < 2n`: the single wrap-around case.  All
index arithmetic of the matrix generator lives below `2n`, so this lemma
turns every `% n` into linear arithmetic. -/
theorem mod_lt_two_mul (a n : Nat) (h : a < 2 * n) :
    a % n = if a < n then a else a - n := by
  split
  · exact Nat.mod_eq_of_lt (by assumption)
  · rw [Nat.mod_eq_sub_mod (Nat.le_of_not_lt (by assumption))]
    exact Nat.mod_eq_of_lt (by omega)

/-- A `Win` target `(i + j) % n` and a `Lose` target `(i + n - j') % n` of the
inner loop never coincide: that would force `j + j' ≡ 0 (mod n)` with
`0 < j + j' ≤ n - 1`. -/
theorem winIndex_ne_loseIndex (n i j j' : Nat) (hi : i < n)
    (hj : 1 ≤ j) (hj2 : j ≤ (n - 1) / 2) (hj' : 1 ≤ j') (hj'2 : j' ≤ (n - 1) / 2) :
    (i + j) % n ≠ (i + n - j') % n := by
  have hn : 0 < n := by omega
  rw [mod_lt_two_mul (i + j) n (by omega), mod_lt_two_mul (i + n - j') n (by omega)]
  split <;> split <;> omega

theorem cellAt_replicate (n r c : Nat) :
    cellAt (List.replicate n (List.replicate n Outcome.Draw)) r c = Outcome.Draw := by
  unfold cellAt
  rcases Nat.lt_or_ge r n with hr | hr
  · have houter : (List.replicate n (List.replicate n Outcome.Draw)).getD r []
        = List.replicate n Outcome.Draw := by
      rw [List.getD_eq_getElem _ [] (by simpa using hr)]
      exact List.getElem_replicate _ _
    rw [houter]
    rcases Nat.lt_or_ge c n with hc | hc
    · rw [List.getD_eq_getElem _ Outcome.Draw (by simpa using hc)]
      exact List.getElem_replicate _ _
    · exact List.getD_eq_default _ _ (by simpa using hc)
  · rw [List.getD_eq_default _ [] (by simpa using hr)]
    rfl

theorem Dims.replicate (n : Nat) :
    Dims n (List.replicate n (List.replicate n Outcome.Draw)) := by
  constructor
  · simp
  · intro row hrow
    simp_all [List.eq_of_mem_replicate hrow]

theorem dims_setCell {n : Nat} {m : List (List Outcome)} (hm : Dims n m)
    {i : Nat} (hi : i < n) (k : Nat) (v : Outcome) :
    Dims n (setCell m i k v) := by
  obtain ⟨hlen, hrows⟩ := hm
  refine ⟨by simp [setCell, hlen], ?_⟩
  intro row hrow
  rcases List.mem_or_eq_of_mem_set hrow with h | h
  · exact hrows row h
  · subst h
    have him : i < m.length := by omega
    rw [List.getD_eq_getElem _ _ him]
    simpa using hrows _ (List.getElem_mem him)

theorem cellAt_setCell {n : Nat} {m : List (List Outcome)} (hm : Dims n m)
    {i k : Nat} (hi : i < n) (hk : k < n) (v : Outcome) (r c : Nat) :
    cellAt (setCell m i k v) r c =
      if r = i ∧ c = k then v else cellAt m r c := by
  obtain ⟨hlen, hrows⟩ := hm
  have him : i < m.length := by omega
  have hrowlen : (m.getD i []).length = n := by
    rw [List.getD_eq_getElem _ _ him]
    exact hrows _ (List.getElem_mem him)
  unfold cellAt setCell
  rcases eq_or_ne r i with hr | hr
  · subst hr
    have houter : (m.set r ((m.getD r []).set k v)).getD r []
        = (m.getD r []).set k v := by
      rw [List.getD_eq_getElem _ [] (by simpa using him)]
      exact List.getElem_set_self _
    rw [houter]
    rcases eq_or_ne c k with hc | hc
    · subst hc
      rw [List.getD_eq_getElem _ Outcome.Draw
        (by rw [List.length_set, hrowlen]; exact hk)]
      rw [List.getElem_set_self]
      simp
    · simp only [hc, and_false, if_false]
      rcases Nat.lt_or_ge c n with hcn | hcn
      · rw [List.getD_eq_getElem _ Outcome.Draw
          (by rw [List.length_set, hrowlen]; exact hcn),
          List.getElem_set_ne (Ne.symm hc),
          List.getD_eq_getElem (m.getD r []) Outcome.Draw (by omega)]
      · rw [List.getD_eq_default _ Outcome.Draw
          (by rw [List.length_set, hrowlen]; exact hcn),
          List.getD_eq_default _ Outcome.Draw (by omega)]
  · simp only [hr, false_and, if_false]
    have houter : (m.set i ((m.getD i []).set k v)).getD r [] = m.getD r [] := by
      rcases Nat.lt_or_ge r m.length with hrm | hrm
      · rw [List.getD_eq_getElem _ [] (by rw [List.length_set]; exact hrm),
          List.getD_eq_getElem m [] hrm]
        exact List.getElem_set_ne (Ne.symm hr) _
      · rw [List.getD_eq_default _ [] (by rw [List.length_set]; exact hrm),
          List.getD_eq_default m [] hrm]
    rw [houter]

theorem dims_innerStep {n : Nat} {m : List (List Outcome)} (hm : Dims n m)
    {i : Nat} (hi : i < n) (j : Nat) : Dims n (innerStep n i m j) :=
  dims_setCell (dims_setCell hm hi _ _) hi _ _

theorem dims_foldl_innerStep {n i : Nat} (hi : i < n) (js : List Nat) :
    ∀ {m : List (List Outcome)}, Dims n m →
      Dims n (js.foldl (innerStep n i) m) := by
  induction js with
  | nil => intro m hm; exact hm
  | cons j js ih => intro m hm; exact ih (dims_innerStep hm hi j)

theorem cellAt_innerStep {n : Nat} {m : List (List Outcome)} (hm : Dims n m)
    {i : Nat} (hi : i < n) (j : Nat) (r c : Nat) :
    cellAt (innerStep n i m j) r c =
      if r = i ∧ c = (i + n - j) % n then Outcome.Lose
      else if r = i ∧ c = (i + j) % n then Outcome.Win
      else cellAt m r c := by
  have hn : 0 < n := by omega
  unfold innerStep
  rw [cellAt_setCell (dims_setCell hm hi _ _) hi (Nat.mod_lt _ hn),
    cellAt_setCell hm hi (Nat.mod_lt _ hn)]

/-- Characterization of the inner loop of `generateRulesMatrix` over any list
of offsets `js` drawn from `{1, …, ⌊(n-1)/2⌋}`: row `i` accumulates `Win` at
the forward offsets and `Lose` at the backward offsets, every other cell is
untouched.  The `Win`/`Lose` targets never clash
(`winIndex_ne_loseIndex`), so the write order inside the loop is
irrelevant. -/
theorem cellAt_foldl_innerStep {n i : Nat} (hi : i < n) (js : List Nat) :
    ∀ (hjs : ∀ j ∈ js, 1 ≤ j ∧ j ≤ (n - 1) / 2)
      {m : List (List Outcome)}, Dims n m → ∀ {r c : Nat}, r < n → c < n →
    cellAt (js.foldl (innerStep n i) m) r c =
      if r = i ∧ ∃ j ∈ js, c = (i + j) % n then Outcome.Win
      else if r = i ∧ ∃ j ∈ js, c = (i + n - j) % n then Outcome.Lose
      else cellAt m r c := by
  induction js with
  | nil => intro hjs m hm r c hr hc; simp
  | cons j js ih =>
    intro hjs m hm r c hr hc
    have hj := hjs j (List.mem_cons_self j js)
    have hjs' : ∀ x ∈ js, 1 ≤ x ∧ x ≤ (n - 1) / 2 :=
      fun x hx => hjs x (List.mem_cons_of_mem _ hx)
    rw [List.foldl_cons, ih hjs' (dims_innerStep hm hi j) hr hc,
      cellAt_innerStep hm hi j r c]
    by_cases hri : r = i
    · subst hri
      have hAD : c = (r + j) % n → ¬∃ x ∈ js, c = (r + n - x) % n := by
        rintro hwj ⟨x, hx, hcx⟩
        exact winIndex_ne_loseIndex n r j x hi hj.1 hj.2 (hjs' x hx).1
          (hjs' x hx).2 (hwj ▸ hcx)
      have hAC : c = (r + j) % n → ¬c = (r + n - j) % n := fun hwj hcl =>
        winIndex_ne_loseIndex n r j j hi hj.1 hj.2 hj.1 hj.2 (hwj ▸ hcl)
      have hBC : (∃ x ∈ js, c = (r + x) % n) → ¬c = (r + n - j) % n := by
        rintro ⟨x, hx, hcx⟩ hcl
        exact winIndex_ne_loseIndex n r x j hi (hjs' x hx).1 (hjs' x hx).2
          hj.1 hj.2 (hcx ▸ hcl)
      have hBD : (∃ x ∈ js, c = (r + x) % n) → ¬∃ x ∈ js, c = (r + n - x) % n := by
        rintro ⟨x, hx, hcx⟩ ⟨y, hy, hcy⟩
        exact winIndex_ne_loseIndex n r x y hi (hjs' x hx).1 (hjs' x hx).2
          (hjs' y hy).1 (hjs' y hy).2 (hcx ▸ hcy)
      simp only [List.exists_mem_cons_iff, eq_self_iff_true, true_and]
      by_cases hB : ∃ x ∈ js, c = (r + x) % n
      · rw [if_pos hB, if_pos (Or.inr hB)]
      · by_cases hA : c = (r + j) % n
        · rw [if_neg hB, if_neg (hAD hA), if_neg (hAC hA), if_pos hA,
            if_pos (Or.inl hA)]
        · by_cases hD : ∃ x ∈ js, c = (r + n - x) % n
          · rw [if_neg hB, if_pos hD, if_neg (not_or.mpr ⟨hA, hB⟩),
              if_pos (Or.inr hD)]
          · by_cases hC : c = (r + n - j) % n
            · rw [if_neg hB, if_neg hD, if_pos hC,
                if_neg (not_or.mpr ⟨hA, hB⟩), if_pos (Or.inl hC)]
            · rw [if_neg hB, if_neg hD, if_neg hC, if_neg hA,
                if_neg (not_or.mpr ⟨hA, hB⟩), if_neg (not_or.mpr ⟨hC, hD⟩)]
    · simp [hri]

theorem dims_rowPass {n : Nat} {m : List (List Outcome)} (hm : Dims n m)
    {i : Nat} (hi : i < n) : Dims n (rowPass n m i) :=
  dims_foldl_innerStep hi _ hm

/-- Characterization of one outer-loop pass: row `i` gets its `Win`/`Lose`
pattern, all other cells are untouched. -/
theorem cellAt_rowPass {n : Nat} {m : List (List Outcome)} (hm : Dims n m)
    {i : Nat} (hi : i < n) {r c : Nat} (hr : r < n) (hc : c < n) :
    cellAt (rowPass n m i) r c =
      if r = i ∧ ∃ j ∈ offsets n, c = (i + j) % n then
        Outcome.Win
      else if r = i ∧ ∃ j ∈ offsets n, c = (i + n - j) % n then
        Outcome.Lose
      else cellAt m r c := by
  unfold rowPass
  exact cellAt_foldl_innerStep hi _
    (fun j hj => by rw [List.mem_range'_1] at hj; omega) hm hr hc

theorem dims_foldl_rowPass {n : Nat} (is : List Nat) :
    ∀ (his : ∀ x ∈ is, x < n) {m : List (List Outcome)}, Dims n m →
      Dims n (is.foldl (rowPass n) m) := by
  induction is with
  | nil => intro _ m hm; exact hm
  | cons i is ih =>
    intro his m hm
    exact ih (fun x hx => his x (List.mem_cons_of_mem _ hx))
      (dims_rowPass hm (his i (List.mem_cons_self i is)))

/-- Characterization of the full outer loop over any list of row indices. -/
theorem cellAt_foldl_rowPass {n : Nat} (is : List Nat) :
    ∀ (his : ∀ x ∈ is, x < n) {m : List (List Outcome)}, Dims n m →
      ∀ {r c : Nat}, r < n → c < n →
    cellAt (is.foldl (rowPass n) m) r c =
      if r ∈ is ∧ ∃ j ∈ offsets n, c = (r + j) % n then
        Outcome.Win
      else if r ∈ is ∧ ∃ j ∈ offsets n, c = (r + n - j) % n then
        Outcome.Lose
      else cellAt m r c := by
  induction is with
  | nil => intro _ m hm r c hr hc; simp
  | cons i is ih =>
    intro his m hm r c hr hc
    have hin : i < n := his i (List.mem_cons_self i is)
    have his' : ∀ x ∈ is, x < n := fun x hx => his x (List.mem_cons_of_mem _ hx)
    rw [List.foldl_cons, ih his' (dims_rowPass hm hin) hr hc,
      cellAt_rowPass hm hin hr hc]
    by_cases hri : r = i
    · subst hri
      by_cases hmem : r ∈ is <;>
        by_cases hW : ∃ j ∈ offsets n, c = (r + j) % n <;>
        by_cases hL : ∃ j ∈ offsets n, c = (r + n - j) % n <;>
        simp [List.mem_cons, hmem, hW, hL]
    · by_cases hmem : r ∈ is <;>
        by_cases hW : ∃ j ∈ offsets n, c = (r + j) % n <;>
        by_cases hL : ∃ j ∈ offsets n, c = (r + n - j) % n <;>
        simp [List.mem_cons, hri, hmem, hW, hL]

theorem dims_generateRulesMatrix (moves : List String) :
    Dims moves.length (generateRulesMatrix moves) :=
  dims_foldl_rowPass _ (fun x hx => List.mem_range.mp hx)
    (Dims.replicate moves.length)

/-- Closed form of `generateRulesMatrix`: cell `(i, k)` is `Win` when `k` is
a forward offset `1 … ⌊(n-1)/2⌋` from `i` (mod `n`), `Lose` when it is such a
backward offset, and `Draw` otherwise. -/
theorem cellAt_generateRulesMatrix (moves : List String) {i k : Nat}
    (hi : i < moves.length) (hk : k < moves.length) :
    cellAt (generateRulesMatrix moves) i k =
      if ∃ j ∈ offsets moves.length,
          k = (i + j) % moves.length then Outcome.Win
      else if ∃ j ∈ offsets moves.length,
          k = (i + moves.length - j) % moves.length then Outcome.Lose
      else Outcome.Draw := by
  have h := cellAt_foldl_rowPass (n := moves.length) (List.range moves.length)
    (fun x hx => List.mem_range.mp hx) (Dims.replicate moves.length) hi hk
  unfold generateRulesMatrix
  rw [h, cellAt_replicate]
  simp [List.mem_range, hi]

/-- The closed form in terms of the circular distance
`d = (k + n - i) % n` from row `i` to column `k`: `Draw` at `d = 0`, `Win`
for `1 ≤ d ≤ ⌊(n-1)/2⌋`, `Lose` for `n - ⌊(n-1)/2⌋ ≤ d ≤ n - 1`, and `Draw`
at the leftover middle distance `n/2` that exists only for even `n`. -/
theorem cellAt_closed (moves : List String) {i k : Nat}
    (hi : i < moves.length) (hk : k < moves.length) :
    cellAt (generateRulesMatrix moves) i k =
      if (k + moves.length - i) % moves.length = 0 then Outcome.Draw
      else if (k + moves.length - i) % moves.length ≤ (moves.length - 1) / 2 then
        Outcome.Win
      else if moves.length - (moves.length - 1) / 2 ≤
          (k + moves.length - i) % moves.length then Outcome.Lose
      else Outcome.Draw := by
  have hn0 : 0 < moves.length := by omega
  have hd2 : k + moves.length - i < 2 * moves.length := by omega
  have hdlt : (k + moves.length - i) % moves.length < moves.length :=
    Nat.mod_lt _ hn0
  have hsplit : (k + moves.length - i < moves.length ∧
        (k + moves.length - i) % moves.length = k + moves.length - i) ∨
      (moves.length ≤ k + moves.length - i ∧
        (k + moves.length - i) % moves.length =
          k + moves.length - i - moves.length) := by
    rw [mod_lt_two_mul _ _ hd2]
    split
    · exact Or.inl ⟨by assumption, rfl⟩
    · exact Or.inr ⟨by omega, rfl⟩
  rw [cellAt_generateRulesMatrix moves hi hk]
  have hW : (∃ j ∈ offsets moves.length, k = (i + j) % moves.length) ↔
      ¬(k + moves.length - i) % moves.length = 0 ∧
        (k + moves.length - i) % moves.length ≤ (moves.length - 1) / 2 := by
    unfold offsets
    constructor
    · rintro ⟨j, hjmem, hkj⟩
      rw [List.mem_range'_1] at hjmem
      rw [mod_lt_two_mul (i + j) _ (by omega)] at hkj
      rcases hsplit with ⟨h1, h2⟩ | ⟨h1, h2⟩ <;> rw [h2] <;>
        split at hkj <;> omega
    · rintro ⟨h0, hle⟩
      refine ⟨(k + moves.length - i) % moves.length, ?_, ?_⟩
      · rw [List.mem_range'_1]; omega
      · rw [mod_lt_two_mul
          (i + (k + moves.length - i) % moves.length) _ (by omega)]
        rcases hsplit with ⟨h1, h2⟩ | ⟨h1, h2⟩ <;> rw [h2] at h0 hle ⊢ <;>
          split <;> omega
  have hL : (∃ j ∈ offsets moves.length,
        k = (i + moves.length - j) % moves.length) ↔
      moves.length - (moves.length - 1) / 2 ≤
        (k + moves.length - i) % moves.length := by
    unfold offsets
    constructor
    · rintro ⟨j, hjmem, hkj⟩
      rw [List.mem_range'_1] at hjmem
      rw [mod_lt_two_mul (i + moves.length - j) _ (by omega)] at hkj
      rcases hsplit with ⟨h1, h2⟩ | ⟨h1, h2⟩ <;> rw [h2] <;>
        split at hkj <;> omega
    · intro hge
      rcases hsplit with ⟨h1, h2⟩ | ⟨h1, h2⟩
      · rw [h2] at hge
        refine ⟨i - k, ?_, ?_⟩
        · rw [List.mem_range'_1]; clear hW; omega
        · have hik : i + moves.length - (i - k) = moves.length + k := by omega
          rw [hik, Nat.add_mod_left, Nat.mod_eq_of_lt hk]
      · rw [h2] at hge
        refine ⟨moves.length - (k - i), ?_, ?_⟩
        · rw [List.mem_range'_1]; clear hW; omega
        · have hik : i + moves.length - (moves.length - (k - i)) = k := by omega
          rw [hik, Nat.mod_eq_of_lt hk]
  simp only [hW, hL]
  clear hW hL
  split_ifs <;> first | rfl | omega

/-- `Array.prototype.indexOf` on a duplicate-free list finds each element at
its own index (stated for `findIdx?` with an arbitrary start offset). -/
theorem findIdx?_beq_getElem (l : List String) (hl : l.Nodup) :
    ∀ {i : Nat} (hi : i < l.length) (s : Nat),
      List.findIdx? (fun x => x == l[i]) l s = some (s + i) := by
  induction l with
  | nil => intro i hi s; simp at hi
  | cons a t ih =>
    intro i hi s
    rw [List.nodup_cons] at hl
    cases i with
    | zero =>
      rw [List.findIdx?_cons, if_pos (by simp)]
      rfl
    | succ i' =>
      simp only [List.getElem_cons_succ]
      rw [List.findIdx?_cons,
        if_neg (by
          intro hcontra
          apply hl.1
          rw [eq_of_beq hcontra]
          exact List.getElem_mem (by simpa using hi)),
        ih hl.2 (by simpa using hi) (s + 1)]
      congr 1
      omega

/-- `determineResult` on two configured moves of a duplicate-free list looks
up the matrix at their indices. -/
theorem determineResult_getElem (moves : List String) (hnd : moves.Nodup)
    {i j : Nat} (hi : i < moves.length) (hj : j < moves.length) :
    (GameRules.ofMoves moves).determineResult moves[i] moves[j] =
      Except.ok (cellAt (generateRulesMatrix moves) i j) := by
  unfold GameRules.determineResult GameRules.ofMoves
  simp only
  rw [findIdx?_beq_getElem moves hnd hi 0, findIdx?_beq_getElem moves hnd hj 0]
  simp

/-- Circular distance from `i` forward to `(i + d) % n` is `d`. -/
theorem dist_of_forward (n i d : Nat) (hi : i < n) (hd : d < n) :
    ((i + d) % n + n - i) % n = d := by
  rw [mod_lt_two_mul (i + d) n (by omega)]
  split
  · have h : i + d + n - i = d + n := by omega
    rw [h, Nat.add_mod_right]
    exact Nat.mod_eq_of_lt hd
  · have h : i + d - n + n - i = d := by omega
    rw [h]
    exact Nat.mod_eq_of_lt hd

/-- Moving forward by the circular distance from `i` to `k` lands on `k`. -/
theorem forward_of_dist (n i k : Nat) (hi : i < n) (hk : k < n) :
    (i + (k + n - i) % n) % n = k := by
  rw [mod_lt_two_mul (k + n - i) n (by omega)]
  split
  · have h : i + (k + n - i) = k + n := by omega
    rw [h, Nat.add_mod_right]
    exact Nat.mod_eq_of_lt hk
  · have h : i + (k + n - i - n) = k := by omega
    rw [h]
    exact Nat.mod_eq_of_lt hk

/-- A matrix cell is `Win` exactly when the circular distance lies in
`{1, …, ⌊(n-1)/2⌋}` (any `n`). -/
theorem cellAt_eq_win_iff (moves : List String) {i k : Nat}
    (hi : i < moves.length) (hk : k < moves.length) :
    cellAt (generateRulesMatrix moves) i k = Outcome.Win ↔
      1 ≤ (k + moves.length - i) % moves.length ∧
        (k + moves.length - i) % moves.length ≤ (moves.length - 1) / 2 := by
  rw [cellAt_closed moves hi hk]
  split_ifs <;> simp <;> omega

/-- A matrix cell is `Lose` exactly when the circular distance lies in
`{n - ⌊(n-1)/2⌋, …, n - 1}` (any `n`). -/
theorem cellAt_eq_lose_iff (moves : List String) {i k : Nat}
    (hi : i < moves.length) (hk : k < moves.length) :
    cellAt (generateRulesMatrix moves) i k = Outcome.Lose ↔
      moves.length - (moves.length - 1) / 2 ≤
        (k + moves.length - i) % moves.length := by
  have hdlt : (k + moves.length - i) % moves.length < moves.length :=
    Nat.mod_lt _ (by omega)
  rw [cellAt_closed moves hi hk]
  split_ifs <;> simp <;> omega

/-- For odd `n`, a matrix cell is `Draw` exactly on the diagonal. -/
theorem cellAt_eq_draw_iff (moves : List String)
    (hodd : moves.length % 2 = 1) {i k : Nat}
    (hi : i < moves.length) (hk : k < moves.length) :
    cellAt (generateRulesMatrix moves) i k = Outcome.Draw ↔ k = i := by
  have hdlt : (k + moves.length - i) % moves.length < moves.length :=
    Nat.mod_lt _ (by omega)
  have hzero : (k + moves.length - i) % moves.length = 0 ↔ k = i := by
    rw [mod_lt_two_mul (k + moves.length - i) moves.length (by omega)]
    split <;> omega
  rw [cellAt_closed moves hi hk]
  split_ifs <;> simp <;> omega

/-- A list is the `getD`-image of its index range. -/
theorem list_eq_map_range_getD (l : List Outcome) :
    l = (List.range l.length).map (fun k => l.getD k Outcome.Draw) := by
  apply List.ext_getElem
  · simp
  · intro k h1 h2
    simp only [List.getElem_map, List.getElem_range]
    rw [List.getD_eq_getElem l Outcome.Draw h1]

/-- Counting in row `i` of the rules matrix is counting matching columns. -/
theorem countP_row_eq_card (moves : List String) {i : Nat}
    (hi : i < moves.length) (p : Outcome → Bool) :
    ((generateRulesMatrix moves).getD i []).countP p =
      ((Finset.range moves.length).filter
        (fun k => p (cellAt (generateRulesMatrix moves) i k) = true)).card := by
  obtain ⟨hlen, hrows⟩ := dims_generateRulesMatrix moves
  have hrowlen : ((generateRulesMatrix moves).getD i []).length = moves.length := by
    rw [List.getD_eq_getElem _ [] (by omega)]
    exact hrows _ (List.getElem_mem (by omega))
  conv_lhs => rw [list_eq_map_range_getD ((generateRulesMatrix moves).getD i [])]
  rw [List.countP_map, hrowlen, List.countP_eq_length_filter]
  have hbridge : ((Finset.range moves.length).filter
        (fun k => p (cellAt (generateRulesMatrix moves) i k) = true)).card =
      ((List.range moves.length).filter
        (fun k => decide (p (cellAt (generateRulesMatrix moves) i k) = true))).length := rfl
  rw [hbridge]
  apply congrArg List.length
  apply List.filter_congr
  intro k hk
  show p (((generateRulesMatrix moves).getD i []).getD k Outcome.Draw) =
    decide (p (cellAt (generateRulesMatrix moves) i k) = true)
  unfold cellAt
  cases p (((generateRulesMatrix moves).getD i []).getD k Outcome.Draw) <;> simp

/-- The `Win` cells of row `i` are the image of the forward offsets. -/
theorem filter_win_eq_image (moves : List String) {i : Nat}
    (hi : i < moves.length) :
    (Finset.range moves.length).filter
        (fun k => cellAt (generateRulesMatrix moves) i k = Outcome.Win) =
      (Finset.Icc 1 ((moves.length - 1) / 2)).image
        (fun d => (i + d) % moves.length) := by
  have h3 : 0 < moves.length := by omega
  ext k
  simp only [Finset.mem_filter, Finset.mem_range, Finset.mem_image, Finset.mem_Icc]
  constructor
  · rintro ⟨hk, hwin⟩
    rw [cellAt_eq_win_iff moves hi hk] at hwin
    exact ⟨(k + moves.length - i) % moves.length, hwin,
      forward_of_dist moves.length i k hi hk⟩
  · rintro ⟨d, ⟨hd1, hd2⟩, hdk⟩
    have hdn : d < moves.length := by omega
    subst hdk
    have hk : (i + d) % moves.length < moves.length := Nat.mod_lt _ h3
    refine ⟨hk, ?_⟩
    rw [cellAt_eq_win_iff moves hi hk,
      dist_of_forward moves.length i d hi hdn]
    exact ⟨hd1, hd2⟩

/-- The `Lose` cells of row `i` are the image of the backward offsets. -/
theorem filter_lose_eq_image (moves : List String) {i : Nat}
    (hi : i < moves.length) :
    (Finset.range moves.length).filter
        (fun k => cellAt (generateRulesMatrix moves) i k = Outcome.Lose) =
      (Finset.Icc (moves.length - (moves.length - 1) / 2)
          (moves.length - 1)).image
        (fun d => (i + d) % moves.length) := by
  have h3 : 0 < moves.length := by omega
  ext k
  simp only [Finset.mem_filter, Finset.mem_range, Finset.mem_image, Finset.mem_Icc]
  constructor
  · rintro ⟨hk, hlose⟩
    rw [cellAt_eq_lose_iff moves hi hk] at hlose
    have hdlt : (k + moves.length - i) % moves.length < moves.length :=
      Nat.mod_lt _ h3
    exact ⟨(k + moves.length - i) % moves.length, ⟨hlose, by omega⟩,
      forward_of_dist moves.length i k hi hk⟩
  · rintro ⟨d, ⟨hd1, hd2⟩, hdk⟩
    have hdn : d < moves.length := by omega
    subst hdk
    have hk : (i + d) % moves.length < moves.length := Nat.mod_lt _ h3
    refine ⟨hk, ?_⟩
    rw [cellAt_eq_lose_iff moves hi hk,
      dist_of_forward moves.length i d hi hdn]
    exact hd1

/-- The forward map is injective on distances below `n`. -/
theorem forward_injOn (moves : List String) {i : Nat} (hi : i < moves.length)
    (s : Finset Nat) (hs : ∀ d ∈ s, d < moves.length) :
    Set.InjOn (fun d => (i + d) % moves.length) ↑s := by
  intro d1 h1 d2 h2 heq
  rw [Finset.mem_coe] at h1 h2
  have e1 := dist_of_forward moves.length i d1 hi (hs d1 h1)
  have e2 := dist_of_forward moves.length i d2 hi (hs d2 h2)
  simp only at heq
  rw [heq, e2] at e1
  exact e1.symm

/-! ## The claims -/

/-- C1: evaluation of the code at the spec's concrete n=3 scenario.  The spec
(and the program's own help text, game.js lines 55–56) states
`resolve("rock","scissors") = Win` and `resolve("rock","paper") = Lose`; the
rules matrix actually produces the opposite outcomes (`Lose` and `Win`),
because `generateRulesMatrix` marks the forward neighbours as `Win` for the
row player.  Only `resolve("rock","rock") = Draw` agrees. -/
theorem determineResult_rps_concrete :
    (GameRules.ofMoves ["rock", "paper", "scissors"]).determineResult
        "rock" "scissors" = Except.ok Outcome.Lose ∧
    (GameRules.ofMoves ["rock", "paper", "scissors"]).determineResult
        "rock" "paper" = Except.ok Outcome.Win ∧
    (GameRules.ofMoves ["rock", "paper", "scissors"]).determineResult
        "rock" "rock" = Except.ok Outcome.Draw :=
  ⟨rfl, rfl, rfl⟩

/-- C2: for a duplicate-free odd-length list of `n ≥ 3` moves and configured
moves at indices `i` (first argument) and `j` (second argument), with
`d = (j - i) mod n`: distance `0` resolves to `Draw`, distances
`1 … (n-1)/2` resolve to `Win`, and distances `(n+1)/2 … n-1` resolve to
`Lose`. -/
theorem resolve_by_circular_distance (moves : List String) (i j : Nat)
    (hnd : moves.Nodup) (hodd : moves.length % 2 = 1) (h3 : 3 ≤ moves.length)
    (hi : i < moves.length) (hj : j < moves.length) :
    ((j + moves.length - i) % moves.length = 0 →
      (GameRules.ofMoves moves).determineResult moves[i] moves[j] =
        Except.ok Outcome.Draw) ∧
    (1 ≤ (j + moves.length - i) % moves.length ∧
        (j + moves.length - i) % moves.length ≤ (moves.length - 1) / 2 →
      (GameRules.ofMoves moves).determineResult moves[i] moves[j] =
        Except.ok Outcome.Win) ∧
    ((moves.length + 1) / 2 ≤ (j + moves.length - i) % moves.length ∧
        (j + moves.length - i) % moves.length ≤ moves.length - 1 →
      (GameRules.ofMoves moves).determineResult moves[i] moves[j] =
        Except.ok Outcome.Lose) := by
  rw [determineResult_getElem moves hnd hi hj]
  have hdlt : (j + moves.length - i) % moves.length < moves.length :=
    Nat.mod_lt _ (by omega)
  refine ⟨?_, ?_, ?_⟩ <;> intro hcond <;> rw [cellAt_closed moves hi hj] <;>
    split_ifs <;> first | rfl | omega

/-- C2 witness: in `["rock","paper","scissors"]`, index 0 against index 1 has
distance 1, which resolves to `Win`. -/
theorem resolve_by_circular_distance_witness :
    (["rock", "paper", "scissors"] : List String).Nodup ∧
    (["rock", "paper", "scissors"] : List String).length % 2 = 1 ∧
    3 ≤ (["rock", "paper", "scissors"] : List String).length ∧
    (GameRules.ofMoves ["rock", "paper", "scissors"]).determineResult
      "rock" "paper" = Except.ok Outcome.Win :=
  ⟨by decide, by decide, by decide, by
    have h := resolve_by_circular_distance ["rock", "paper", "scissors"] 0 1
      (by decide) (by decide) (by decide) (by decide) (by decide)
    exact h.2.1 (by decide)⟩

/-- C3: antisymmetry — for a duplicate-free odd-length list of `n ≥ 3` moves,
`resolve(a,b) = Win` exactly when `resolve(b,a) = Lose`. -/
theorem resolve_antisymm (moves : List String) (i j : Nat)
    (hnd : moves.Nodup) (hodd : moves.length % 2 = 1) (h3 : 3 ≤ moves.length)
    (hi : i < moves.length) (hj : j < moves.length) :
    (GameRules.ofMoves moves).determineResult moves[i] moves[j] =
        Except.ok Outcome.Win ↔
      (GameRules.ofMoves moves).determineResult moves[j] moves[i] =
        Except.ok Outcome.Lose := by
  rw [determineResult_getElem moves hnd hi hj,
    determineResult_getElem moves hnd hj hi]
  have hrel : (j + moves.length - i) % moves.length = 0 ∧
        (i + moves.length - j) % moves.length = 0 ∨
      (j + moves.length - i) % moves.length +
        (i + moves.length - j) % moves.length = moves.length := by
    rw [mod_lt_two_mul (j + moves.length - i) moves.length (by omega),
      mod_lt_two_mul (i + moves.length - j) moves.length (by omega)]
    split <;> split <;> omega
  have hd1 : (j + moves.length - i) % moves.length < moves.length :=
    Nat.mod_lt _ (by omega)
  have hd2 : (i + moves.length - j) % moves.length < moves.length :=
    Nat.mod_lt _ (by omega)
  simp only [Except.ok.injEq]
  rw [cellAt_eq_win_iff moves hi hj, cellAt_eq_lose_iff moves hj hi]
  rcases hrel with ⟨h1, h2⟩ | h <;> omega

/-- C3 witness: `resolve("rock","paper") = Win` iff
`resolve("paper","rock") = Lose` in the standard three-move list. -/
theorem resolve_antisymm_witness :
    (["rock", "paper", "scissors"] : List String).Nodup ∧
    ((GameRules.ofMoves ["rock", "paper", "scissors"]).determineResult
        "rock" "paper" = Except.ok Outcome.Win ↔
      (GameRules.ofMoves ["rock", "paper", "scissors"]).determineResult
        "paper" "rock" = Except.ok Outcome.Lose) :=
  ⟨by decide, resolve_antisymm ["rock", "paper", "scissors"] 0 1
    (by decide) (by decide) (by decide) (by decide) (by decide)⟩

/-- C5: reflexive draw — for a duplicate-free odd-length list of `n ≥ 3`
moves, every configured move draws against itself. -/
theorem resolve_reflexive_draw (moves : List String) (a : String)
    (hnd : moves.Nodup) (hodd : moves.length % 2 = 1) (h3 : 3 ≤ moves.length)
    (ha : a ∈ moves) :
    (GameRules.ofMoves moves).determineResult a a = Except.ok Outcome.Draw := by
  obtain ⟨i, hi, rfl⟩ := List.getElem_of_mem ha
  rw [determineResult_getElem moves hnd hi hi, cellAt_closed moves hi hi]
  have h0 : (i + moves.length - i) % moves.length = 0 := by
    have h : i + moves.length - i = moves.length := by omega
    rw [h, Nat.mod_self]
  rw [if_pos h0]

/-- C5 witness: `resolve("paper","paper") = Draw`. -/
theorem resolve_reflexive_draw_witness :
    (["rock", "paper", "scissors"] : List String).Nodup ∧
    "paper" ∈ (["rock", "paper", "scissors"] : List String) ∧
    (GameRules.ofMoves ["rock", "paper", "scissors"]).determineResult
      "paper" "paper" = Except.ok Outcome.Draw :=
  ⟨by decide, by decide, resolve_reflexive_draw ["rock", "paper", "scissors"]
    "paper" (by decide) (by decide) (by decide) (by decide)⟩

/-- C4: row balance — for a duplicate-free odd-length list of `n ≥ 3` moves,
every row of the rules matrix holds exactly `(n-1)/2` `Win` cells, exactly
`(n-1)/2` `Lose` cells, and exactly one `Draw` cell, namely the diagonal;
equivalently each move wins against exactly `(n-1)/2` others and loses to
exactly `(n-1)/2` others. -/
theorem generateRulesMatrix_row_balance (moves : List String) (i : Nat)
    (hnd : moves.Nodup) (hodd : moves.length % 2 = 1) (h3 : 3 ≤ moves.length)
    (hi : i < moves.length) :
    ((generateRulesMatrix moves).getD i []).countP
        (fun o => decide (o = Outcome.Win)) = (moves.length - 1) / 2 ∧
    ((generateRulesMatrix moves).getD i []).countP
        (fun o => decide (o = Outcome.Lose)) = (moves.length - 1) / 2 ∧
    ((generateRulesMatrix moves).getD i []).countP
        (fun o => decide (o = Outcome.Draw)) = 1 ∧
    cellAt (generateRulesMatrix moves) i i = Outcome.Draw := by
  refine ⟨?_, ?_, ?_, (cellAt_eq_draw_iff moves hodd hi hi).mpr rfl⟩
  · rw [countP_row_eq_card moves hi]
    simp only [decide_eq_true_eq]
    rw [filter_win_eq_image moves hi, Finset.card_image_of_injOn
        (forward_injOn moves hi _ (fun d hd => by
          rw [Finset.mem_Icc] at hd; omega)),
      Nat.card_Icc]
    omega
  · rw [countP_row_eq_card moves hi]
    simp only [decide_eq_true_eq]
    rw [filter_lose_eq_image moves hi, Finset.card_image_of_injOn
        (forward_injOn moves hi _ (fun d hd => by
          rw [Finset.mem_Icc] at hd; omega)),
      Nat.card_Icc]
    omega
  · rw [countP_row_eq_card moves hi]
    simp only [decide_eq_true_eq]
    have hset : (Finset.range moves.length).filter
        (fun k => cellAt (generateRulesMatrix moves) i k = Outcome.Draw) =
          {i} := by
      ext k
      simp only [Finset.mem_filter, Finset.mem_range, Finset.mem_singleton]
      constructor
      · rintro ⟨hk, hdraw⟩
        exact (cellAt_eq_draw_iff moves hodd hi hk).mp hdraw
      · rintro rfl
        exact ⟨hi, (cellAt_eq_draw_iff moves hodd hi hi).mpr rfl⟩
    rw [hset, Finset.card_singleton]

/-- C4 witness: row 0 of the 3-move matrix has one Win, one Lose, one Draw,
and the diagonal cell is Draw. -/
theorem generateRulesMatrix_row_balance_witness :
    (["rock", "paper", "scissors"] : List String).Nodup ∧
    ((generateRulesMatrix ["rock", "paper", "scissors"]).getD 0 []).countP
        (fun o => decide (o = Outcome.Win)) = 1 ∧
    ((generateRulesMatrix ["rock", "paper", "scissors"]).getD 0 []).countP
        (fun o => decide (o = Outcome.Lose)) = 1 ∧
    ((generateRulesMatrix ["rock", "paper", "scissors"]).getD 0 []).countP
        (fun o => decide (o = Outcome.Draw)) = 1 ∧
    cellAt (generateRulesMatrix ["rock", "paper", "scissors"]) 0 0 =
      Outcome.Draw :=
  ⟨by decide, generateRulesMatrix_row_balance ["rock", "paper", "scissors"] 0
    (by decide) (by decide) (by decide) (by decide)⟩

/-- C10: the `GameRules` constructor performs no validation — for a
duplicate-free list of even length `n ≥ 2` it still builds a full `n × n`
table, and the cell at circular distance `n/2` from any row, an off-diagonal
cell, resolves to `Draw`. -/
theorem gameRules_even_no_validation (moves : List String) (i k : Nat)
    (hnd : moves.Nodup) (heven : moves.length % 2 = 0) (h2 : 2 ≤ moves.length)
    (hi : i < moves.length) (hklt : k < moves.length)
    (hk : k = (i + moves.length / 2) % moves.length) :
    (generateRulesMatrix moves).length = moves.length ∧
    (∀ row ∈ generateRulesMatrix moves, row.length = moves.length) ∧
    k ≠ i ∧
    (GameRules.ofMoves moves).determineResult moves[i] moves[k] =
      Except.ok Outcome.Draw := by
  obtain ⟨hlen, hrows⟩ := dims_generateRulesMatrix moves
  subst hk
  refine ⟨hlen, hrows, ?_, ?_⟩
  · rw [mod_lt_two_mul (i + moves.length / 2) _ (by omega)]
    split <;> omega
  · rw [determineResult_getElem moves hnd hi hklt, cellAt_closed moves hi hklt,
      dist_of_forward moves.length i (moves.length / 2) hi (by omega)]
    split_ifs <;> first | rfl | omega

/-- C10 witness: with the even four-move list `["a","b","c","d"]` the
constructor builds a 4×4 table and `resolve("a","c")` (distance 2 = 4/2)
is an off-diagonal `Draw`. -/
theorem gameRules_even_no_validation_witness :
    (["a", "b", "c", "d"] : List String).Nodup ∧
    (["a", "b", "c", "d"] : List String).length % 2 = 0 ∧
    (generateRulesMatrix ["a", "b", "c", "d"]).length = 4 ∧
    (2 : Nat) ≠ 0 ∧
    (GameRules.ofMoves ["a", "b", "c", "d"]).determineResult "a" "c" =
      Except.ok Outcome.Draw := by
  have h := gameRules_even_no_validation ["a", "b", "c", "d"] 0 2
    (by decide) (by decide) (by decide) (by decide) (by decide) (by decide)
  exact ⟨by decide, by decide, h.1, h.2.2.1, h.2.2.2⟩

/-- C7: the program's construction path rejects a move list with fewer than 3
entries, an even number of entries, or duplicates — `validateArguments`
reports the configuration error and no `GameRules` relation is produced. -/
theorem buildGame_invalid_configuration (args : List String)
    (h : args.length < 3 ∨ args.length % 2 = 0 ∨ ¬args.Nodup) :
    buildGame args = Except.error configurationErrorMessage := by
  have hv : validateArguments args = true := by
    unfold validateArguments
    rcases h with h | h | h
    · simp [h]
    · simp [h]
    · have hne : args.dedup.length ≠ args.length := fun heq =>
        h (List.dedup_eq_self.mp ((List.dedup_sublist args).eq_of_length heq))
      simp [hne]
  simp [buildGame, hv]

/-- C7 witness: two moves are too few, so building fails. -/
theorem buildGame_invalid_configuration_witness :
    (["a", "b"] : List String).length < 3 ∧
    buildGame ["a", "b"] = Except.error configurationErrorMessage :=
  ⟨by decide, buildGame_invalid_configuration ["a", "b"] (Or.inl (by decide))⟩

/-- C8: `determineResult` throws the invalid-move error whenever either
argument is absent from the configured move list, and never throws when both
are present. -/
theorem determineResult_unknown_move (moves : List String) (a b : String) :
    ((a ∉ moves ∨ b ∉ moves) →
      (GameRules.ofMoves moves).determineResult a b =
        Except.error invalidMoveMessage) ∧
    (a ∈ moves → b ∈ moves →
      ∃ o, (GameRules.ofMoves moves).determineResult a b = Except.ok o) := by
  constructor
  · intro h
    unfold GameRules.determineResult GameRules.ofMoves
    simp only
    rcases h with h | h
    · have hfa : moves.findIdx? (· == a) = none := by
        simp only [List.findIdx?_eq_none_iff]
        intro x hx
        exact beq_eq_false_iff_ne.mpr (fun hxa => h (hxa ▸ hx))
      rw [hfa]
    · have hfb : moves.findIdx? (· == b) = none := by
        simp only [List.findIdx?_eq_none_iff]
        intro x hx
        exact beq_eq_false_iff_ne.mpr (fun hxb => h (hxb ▸ hx))
      rw [hfb]
      cases hfa : moves.findIdx? (· == a) <;> rfl
  · intro ha hb
    have hfa : ∃ ka, moves.findIdx? (· == a) = some ka := by
      cases hfa : moves.findIdx? (· == a) with
      | none =>
        simp only [List.findIdx?_eq_none_iff] at hfa
        exact absurd (hfa a ha) (by simp)
      | some ka => exact ⟨ka, rfl⟩
    have hfb : ∃ kb, moves.findIdx? (· == b) = some kb := by
      cases hfb : moves.findIdx? (· == b) with
      | none =>
        simp only [List.findIdx?_eq_none_iff] at hfb
        exact absurd (hfb b hb) (by simp)
      | some kb => exact ⟨kb, rfl⟩
    obtain ⟨ka, hka⟩ := hfa
    obtain ⟨kb, hkb⟩ := hfb
    refine ⟨cellAt (generateRulesMatrix moves) ka kb, ?_⟩
    unfold GameRules.determineResult GameRules.ofMoves
    simp only
    rw [hka, hkb]

/-- C8 witness: `"lizard"` is not configured, so resolving against it throws;
two configured moves resolve without an error. -/
theorem determineResult_unknown_move_witness :
    ("lizard" ∉ (["rock", "paper", "scissors"] : List String)) ∧
    (GameRules.ofMoves ["rock", "paper", "scissors"]).determineResult
        "rock" "lizard" = Except.error invalidMoveMessage ∧
    (∃ o, (GameRules.ofMoves ["rock", "paper", "scissors"]).determineResult
        "rock" "scissors" = Except.ok o) :=
  ⟨by decide,
    (determineResult_unknown_move ["rock", "paper", "scissors"]
      "rock" "lizard").1 (Or.inr (by decide)),
    (determineResult_unknown_move ["rock", "paper", "scissors"]
      "rock" "scissors").2 (by decide) (by decide)⟩

/-! ## Lemmas about the digest -/

theorem stateBytes_length (s : Sha256State) : (stateBytes s).length = 32 := by
  simp [stateBytes, wordBytes]

theorem sha256_length (msg : List Nat) : (sha256 msg).length = 32 :=
  stateBytes_length _

theorem hmacSha256_length (key msg : List Nat) :
    (hmacSha256 key msg).length = 32 :=
  sha256_length _

theorem flatMap_byteHex_length (bs : List Nat) :
    (bs.flatMap byteHex).length = 2 * bs.length := by
  induction bs with
  | nil => simp
  | cons b bs ih =>
    simp only [List.flatMap_cons, List.length_append, ih, byteHex]
    simp
    omega

theorem hexDigit_mem (n : Nat) : hexDigit n ∈ hexChars := by
  unfold hexDigit
  rcases Nat.lt_or_ge n 16 with h | h
  · rw [List.getD_eq_getElem hexChars '0' h]
    exact List.getElem_mem (show n < hexChars.length from h)
  · rw [List.getD_eq_default hexChars '0' h]
    decide

theorem mem_hexChars_of_mem_byteHex (b : Nat) (c : Char)
    (hc : c ∈ byteHex b) : c ∈ hexChars := by
  unfold byteHex at hc
  simp only [List.mem_cons, List.not_mem_nil, or_false] at hc
  rcases hc with rfl | rfl <;> exact hexDigit_mem _

/-- C9: for every key and message, `calculateHMAC` returns a string of
exactly 64 characters, all of them lowercase hexadecimal digits. -/
theorem calculateHMAC_hex64 (key : List Nat) (message : String) :
    (HMACCalculator.calculateHMAC key message).length = 64 ∧
    ∀ c ∈ (HMACCalculator.calculateHMAC key message).data, c ∈ hexChars := by
  constructor
  · show ((hmacSha256 key (utf8Bytes message)).flatMap byteHex).length = 64
    rw [flatMap_byteHex_length, hmacSha256_length]
  · intro c hc
    have hc' : c ∈ (hmacSha256 key (utf8Bytes message)).flatMap byteHex := hc
    rw [List.mem_flatMap] at hc'
    obtain ⟨b, hb, hcb⟩ := hc'
    exact mem_hexChars_of_mem_byteHex b c hcb

/-- C6: commitment round-trip — for every 32-byte key and every move,
verifying the freshly computed commitment succeeds, since `verify`
recomputes `calculateHMAC` deterministically and compares for equality. -/
theorem verify_calculateHMAC_roundtrip (key : List Nat) (move : String)
    (hkey : key.length = 32) :
    verify key move (HMACCalculator.calculateHMAC key move) = true := by
  unfold verify
  exact beq_self_eq_true _

/-- C6 witness: round-trip at the all-zero 32-byte key and move `"rock"`. -/
theorem verify_calculateHMAC_roundtrip_witness :
    (List.replicate 32 (0 : Nat)).length = 32 ∧
    verify (List.replicate 32 0) "rock"
      (HMACCalculator.calculateHMAC (List.replicate 32 0) "rock") = true :=
  ⟨by simp, verify_calculateHMAC_roundtrip (List.replicate 32 0) "rock"
    (by simp)⟩
